import Mathlib

/-!
Verification development for the redux-sacala block-composition library
(src/redux-sacala.ts).  JavaScript objects are modelled as ordered
association lists over `String` keys; JS reference equality on state values
is identified with Lean equality (the reducers under study either return
the input value itself or build a new one).  `undefined` arguments are
modelled with `Option`.
-/

namespace ReduxSacala

/-- A JavaScript object: ordered own-property list, unique keys when built
by property assignment. -/
abbrev JsObj (α : Type) : Type := List (String × α)

/-- Property read `m[k]`: the value stored at `k`, or `none` (undefined). -/
def objGet {α : Type} : JsObj α → String → Option α
  | [], _ => none
  | (k', v) :: rest, k => if k' = k then some v else objGet rest k

/-- Property write `m[k] = v`: replace the existing entry in place, or
append a new entry at the end, as JS object assignment does. -/
def objSet {α : Type} : JsObj α → String → α → JsObj α
  | [], k, v => [(k, v)]
  | (k', v') :: rest, k, v =>
    if k' = k then (k, v) :: rest else (k', v') :: objSet rest k v

/-- `Object.assign(dst, src)`: copy every entry of `src` onto `dst`, in
order, overwriting existing keys. -/
def objAssign {α : Type} (dst src : JsObj α) : JsObj α :=
  src.foldl (fun acc kv => objSet acc kv.1 kv.2) dst

/-- `Object.fromEntries(l)`: build an object from a pair list; duplicate
keys resolve to the last occurrence, as in JS. -/
def jsFromEntries {α : Type} (l : List (String × α)) : JsObj α :=
  objAssign [] l

/-- The last element of a list satisfying `p`, if any. -/
def lastWith {α : Type} (p : α → Bool) : List α → Option α
  | [] => none
  | x :: rest =>
    match lastWith p rest with
    | some y => some y
    | none => if p x then some x else none

/-- A dispatched action object: a `type` string plus an optional `payload`
argument sequence (the key is absent for zero-argument creators). -/
structure JsAction (V : Type) where
  type : String
  payload : Option (List V)
deriving DecidableEq

/-- The action-creator proxy (`creator` in the source): property `p` of the
scope-`scope` proxy is a callable that builds `{type: scope + "/" + p}`
when applied to no arguments and `{type, payload}` otherwise.  The proxy
target starts empty, so the own-property fast path never fires. -/
def creator {V : Type} (scope : String) : String → List V → JsAction V :=
  fun property payload =>
    let type := scope ++ "/" ++ property
    if payload.length ≠ 0 then ⟨type, some payload⟩ else ⟨type, none⟩

section ObjLemmas

variable {α : Type}

theorem objGet_objSet_self (m : JsObj α) (k : String) (v : α) :
    objGet (objSet m k v) k = some v := by
  induction m with
  | nil => simp [objSet, objGet]
  | cons hd rest ih =>
    by_cases h : hd.1 = k
    · simp [objSet, objGet, h]
    · simp [objSet, objGet, h, ih]

theorem objGet_objSet_ne (m : JsObj α) {k k' : String} (v : α) (h : k' ≠ k) :
    objGet (objSet m k' v) k = objGet m k := by
  induction m with
  | nil => simp [objSet, objGet, h]
  | cons hd rest ih =>
    by_cases hh : hd.1 = k'
    · simp [objSet, objGet, hh, h]
    · simp only [objSet, hh, if_false]
      by_cases hk : hd.1 = k
      · simp [objGet, hk]
      · simp [objGet, hk, ih]

theorem mem_keys_objSet (m : JsObj α) (k x : String) (v : α) :
    x ∈ (objSet m k v).map Prod.fst ↔ x ∈ m.map Prod.fst ∨ x = k := by
  induction m with
  | nil => simp [objSet]
  | cons hd rest ih =>
    by_cases h : hd.1 = k
    · subst h
      have hstep : objSet (hd :: rest) hd.1 v = (hd.1, v) :: rest := by
        simp [objSet]
      rw [hstep]
      simp only [List.map_cons, List.mem_cons]
      tauto
    · simp only [objSet, if_neg h, List.map_cons, List.mem_cons, ih]
      tauto

theorem nodupKeys_objSet (m : JsObj α) (k : String) (v : α)
    (h : (m.map Prod.fst).Nodup) : ((objSet m k v).map Prod.fst).Nodup := by
  induction m with
  | nil => simp [objSet]
  | cons hd rest ih =>
    simp only [List.map_cons, List.nodup_cons] at h
    by_cases hh : hd.1 = k
    · subst hh
      simpa [objSet, List.nodup_cons] using h
    · simp only [objSet, if_neg hh, List.map_cons, List.nodup_cons]
      refine ⟨fun hmem => ?_, ih h.2⟩
      rcases (mem_keys_objSet rest k hd.1 v).1 hmem with hm | he
      · exact h.1 hm
      · exact hh he

theorem objSet_objSet (m : JsObj α) (k : String) (v1 v2 : α) :
    objSet (objSet m k v1) k v2 = objSet m k v2 := by
  induction m with
  | nil => simp [objSet]
  | cons hd rest ih =>
    by_cases h : hd.1 = k
    · simp [objSet, h]
    · simp [objSet, h, ih]

theorem objGet_eq_none_of_not_mem_keys {m : JsObj α} {k : String}
    (h : k ∉ m.map Prod.fst) : objGet m k = none := by
  induction m with
  | nil => rfl
  | cons hd rest ih =>
    simp only [List.map_cons, List.mem_cons, not_or] at h
    simp only [objGet, if_neg (fun he : hd.1 = k => h.1 he.symm)]
    exact ih h.2

/-- Reading an assigned object: entries of `src` win over `dst` (`src` has
unique keys, as every object produced by property assignment does). -/
theorem objGet_objAssign (dst src : JsObj α)
    (h : (src.map Prod.fst).Nodup) (k : String) :
    objGet (objAssign dst src) k =
      match objGet src k with
      | some v => some v
      | none => objGet dst k := by
  induction src generalizing dst with
  | nil => simp [objAssign, objGet]
  | cons hd rest ih =>
    simp only [List.map_cons, List.nodup_cons] at h
    have step : objAssign dst (hd :: rest) = objAssign (objSet dst hd.1 hd.2) rest := by
      simp [objAssign]
    rw [step, ih _ h.2]
    by_cases hk : hd.1 = k
    · subst hk
      have hrest : objGet rest hd.1 = none :=
        objGet_eq_none_of_not_mem_keys h.1
      simp [objGet, hrest, objGet_objSet_self]
    · have hhd : objGet (hd :: rest) k = objGet rest k := by
        simp [objGet, hk]
      rw [hhd]
      cases hr : objGet rest k with
      | some v => simp
      | none => simp [objGet_objSet_ne dst hd.2 hk]

end ObjLemmas

/-! ## Selector trees and lifting

A selector tree (`SelectorTree` in the spec, the `Tree` argument of `lift`
in the source) is either a leaf selector function or a JS object of
subtrees; the object's entry list is represented by the mutually inductive
forest `SForest`. -/

mutual

inductive STree (S V : Type) : Type where
  | leaf : (S → V) → STree S V
  | node : SForest S V → STree S V

inductive SForest (S V : Type) : Type where
  | nil : SForest S V
  | cons : String → STree S V → SForest S V → SForest S V

end

mutual

/-- `lift(tree, selectState)` from the source: a leaf selector `f` becomes
`fun root => f (selectState root)`; an object node is rebuilt entry by
entry with every subtree lifted, keys preserved. -/
def lift {S V R : Type} (selectState : R → S) : STree S V → STree R V
  | .leaf f => .leaf fun root => f (selectState root)
  | .node kids => .node (liftF selectState kids)

/-- Entry-wise `lift` over an object node's entries (the
`Object.entries(...).map` in the source). -/
def liftF {S V R : Type} (selectState : R → S) : SForest S V → SForest R V
  | .nil => .nil
  | .cons k t rest => .cons k (lift selectState t) (liftF selectState rest)

end

/-- Read the subtree stored under `key` in a forest (JS property read). -/
def fGet {S V : Type} : SForest S V → String → Option (STree S V)
  | .nil, _ => none
  | .cons k t rest, key => if k = key then some t else fGet rest key

/-- Store a subtree under `key` in a forest (JS property write: replace in
place or append at the end). -/
def fSet {S V : Type} : SForest S V → String → STree S V → SForest S V
  | .nil, key, t => .cons key t .nil
  | .cons k u rest, key, t =>
    if k = key then .cons key t rest else .cons k u (fSet rest key t)

/-- `Object.assign` over forests: copy `src`'s entries onto `dst` in order. -/
def fAssign {S V : Type} : SForest S V → SForest S V → SForest S V
  | dst, .nil => dst
  | dst, .cons k t rest => fAssign (fSet dst k t) rest

/-- Leaf selector reached by following a key path into a tree. -/
def pathGet {S V : Type} (t : STree S V) : List String → Option (S → V)
  | [] =>
    match t with
    | .leaf f => some f
    | .node _ => none
  | key :: rest =>
    match t with
    | .leaf _ => none
    | .node kids =>
      match fGet kids key with
      | some u => pathGet u rest
      | none => none

mutual

/-- The key skeleton of a selector tree: what remains when every leaf
function is erased. -/
inductive Shape : Type where
  | leaf : Shape
  | node : ShapeForest → Shape

inductive ShapeForest : Type where
  | nil : ShapeForest
  | cons : String → Shape → ShapeForest → ShapeForest

end

mutual

def shapeOf {S V : Type} : STree S V → Shape
  | .leaf _ => .leaf
  | .node kids => .node (shapeOfF kids)

def shapeOfF {S V : Type} : SForest S V → ShapeForest
  | .nil => .nil
  | .cons k t rest => .cons k (shapeOf t) (shapeOfF rest)

end

/-! ## Blocks and builders

Type parameters: `σ` the block's state, `V` the type of JS values carried
in payloads and produced by selectors, `Ctx` the effects context, `E` the
observable outcome of invoking an effect handler, `A` the type of the
block's `actions` field.  A reducer receives `none` for JS `undefined`
state and always returns a state value. -/

/-- The `ReduxBlock` interface of the source: action creators, reducer,
effects factory and selector tree. -/
structure ReduxBlock (σ V Ctx E A : Type) where
  actions : A
  reducer : Option σ → JsAction V → σ
  effects : Ctx → JsObj (List V → E)
  select : STree σ V

/-- The own property keys of `Object.prototype`.  The handler map behind a
built block's reducer is a `{}` literal, so plain indexing
`this.reducers[action.type]` falls through to these inherited members when
the type is not registered: each resolves to a truthy value, the
`if (!handler)` guard does not fire, and the member is invoked as if it
were a handler.  (`__proto__` is an accessor yielding the prototype object,
which is truthy but not callable, so the program throws there — also not a
referential no-op.) -/
def objectProtoKeys : List String :=
  ["constructor", "__defineGetter__", "__defineSetter__", "hasOwnProperty",
    "__lookupGetter__", "__lookupSetter__", "isPrototypeOf",
    "propertyIsEnumerable", "toString", "valueOf", "__proto__",
    "toLocaleString"]

/-- The behavior of `Object.prototype`'s members when a built block's
reducer invokes one as an action handler on a state of type `σ` (a
strict-mode call, `this` is `undefined`).  JS is untyped, so what each
member returns (for `toString`, the string `"[object Undefined]"`) lies
outside an arbitrary `σ`; the embedding therefore takes the behavior per
state type, and theorems about these inherited types hold for every
instance. -/
class JsProto (σ V : Type) where
  method : String → σ → List V → σ

/-- Plain property indexing `m[k]` on a `{}`-prototyped object: an own
entry when present, otherwise the inherited `Object.prototype` member for
its own keys, otherwise `undefined`. -/
def protoGet {H : Type} (m : JsObj H) (k : String) (proto : String → H) :
    Option H :=
  match objGet m k with
  | some h => some h
  | none => if k ∈ objectProtoKeys then some (proto k) else none

/-- `BlockBuilder`'s private accumulating state: block name, initial state,
the per-type action-handler map, the ordered effects-factory list, and the
flat selector record. -/
structure BlockBuilder (σ V Ctx E : Type) where
  name : String
  initial : σ
  reducers : JsObj (σ → List V → σ)
  handlers : List (Ctx → JsObj (List V → E))
  select : SForest σ V

namespace BlockBuilder

/-- `BlockBuilder.init` / `ReduxBlock.builder`: empty builder. -/
def init {σ V Ctx E : Type} (name : String) (initial : σ) :
    BlockBuilder σ V Ctx E :=
  ⟨name, initial, [], [], .nil⟩

/-- `BlockBuilder.action`: store the handler under the fully qualified type
string, overwriting any earlier registration for the same name. -/
def action {σ V Ctx E : Type} (b : BlockBuilder σ V Ctx E) (act : String)
    (handler : σ → List V → σ) : BlockBuilder σ V Ctx E :=
  { b with reducers := objSet b.reducers (b.name ++ "/" ++ act) handler }

/-- `BlockBuilder.effects`: append a factory to the ordered list. -/
def effects {σ V Ctx E : Type} (b : BlockBuilder σ V Ctx E)
    (eff : Ctx → JsObj (List V → E)) : BlockBuilder σ V Ctx E :=
  { b with handlers := b.handlers ++ [eff] }

/-- `BlockBuilder.selectors`: shallow-merge a record of selectors into the
accumulated one (`Object.assign`). -/
def selectors {σ V Ctx E : Type} (b : BlockBuilder σ V Ctx E)
    (sels : SForest σ V) : BlockBuilder σ V Ctx E :=
  { b with select := fAssign b.select sels }

/-- The effects table a built block exposes: every factory's result, keys
re-namespaced to `name ++ "/" ++ effectName`, merged left to right. -/
def buildEffects {σ V Ctx E : Type} (b : BlockBuilder σ V Ctx E) (c : Ctx) :
    JsObj (List V → E) :=
  b.handlers.foldl
    (fun acc eff =>
      objAssign acc
        (jsFromEntries ((eff c).map fun kv => (b.name ++ "/" ++ kv.1, kv.2))))
    []

/-- `BlockBuilder.build`: the reducer defaults `undefined` state to the
initial state, looks the handler up by plain indexing on the
`{}`-prototyped handler map (so `Object.prototype` keys resolve to the
truthy inherited member), returns the (defaulted) state unchanged when the
lookup yields `undefined`, and otherwise calls the found function with the
spread payload (no extra arguments when `payload` is absent or empty). -/
def build {σ V Ctx E : Type} [JsProto σ V] (b : BlockBuilder σ V Ctx E) :
    ReduxBlock σ V Ctx E (String → List V → JsAction V) where
  actions := creator b.name
  effects := b.buildEffects
  reducer := fun state a =>
    let s := state.getD b.initial
    match protoGet b.reducers a.type JsProto.method with
    | none => s
    | some handler =>
      match a.payload with
      | some p => if p.length ≠ 0 then handler s p else handler s []
      | none => handler s []
  select := .node b.select

end BlockBuilder

/-! ## Composition -/

/-- The composite reducer from `CompositionBuilder.build`: fold the child
reducers over the incoming state, lazily shallow-copying the top-level
object the first time a child's slice comes back different, and replacing
exactly the changed slots.  When nothing changed the original `state` is
returned; the JS function returns `undefined` for `undefined` input with no
children, a corner this model collapses to the empty object.
`compositeStep` is the loop body: compare the child's updated slice with
the original read from the incoming state and record changed slots. -/
def compositeStep {σ V : Type} [DecidableEq σ]
    (state : Option (JsObj σ)) (a : JsAction V) (acc : JsObj σ × Bool)
    (nr : String × (Option σ → JsAction V → σ)) : JsObj σ × Bool :=
  let original := state.bind fun st => objGet st nr.1
  let updated := nr.2 original a
  if some updated = original then acc
  else (objSet acc.1 nr.1 updated, true)

def compositeReducer {σ V : Type} [DecidableEq σ]
    (reducers : List (String × (Option σ → JsAction V → σ)))
    (state : Option (JsObj σ)) (a : JsAction V) : JsObj σ :=
  let r := reducers.foldl (compositeStep state a) (state.getD [], false)
  if r.2 then r.1 else state.getD []

/-- What reading a property of a composite's `actions` proxy yields: a
child block's own `actions` object when one was registered under the name,
otherwise a composition-scoped action creator manufactured on demand. -/
inductive CompCreator (V A : Type) : Type where
  | child : A → CompCreator V A
  | scoped : (List V → JsAction V) → CompCreator V A

/-- `CompositionBuilder`'s private state: name, registered child blocks,
composition-level effects factories, the child `actions` records assigned
onto the creators proxy, and the accumulating selector record. -/
structure CompositionBuilder (σ V Ctx E A : Type) where
  name : String
  blocks : JsObj (ReduxBlock σ V Ctx E A)
  handlers : List (Ctx → JsObj (List V → E))
  creators : JsObj A
  select : SForest (JsObj σ) V

namespace CompositionBuilder

/-- `CompositionBuilder.init`. -/
def init {σ V Ctx E A : Type} (name : String) :
    CompositionBuilder σ V Ctx E A :=
  ⟨name, [], [], [], .nil⟩

/-- `CompositionBuilder.block`: register the child under `name`, expose its
`actions` there, and store the child's selector tree lifted along
`fun rootState => rootState[name]` (reading an absent slot yields the
`Inhabited` default, standing for JS `undefined`). -/
def block {σ V Ctx E A : Type} [Inhabited σ]
    (b : CompositionBuilder σ V Ctx E A) (name : String)
    (blk : ReduxBlock σ V Ctx E A) : CompositionBuilder σ V Ctx E A :=
  { b with
      blocks := objSet b.blocks name blk
      creators := objSet b.creators name blk.actions
      select := fSet b.select name
        (lift (fun rootState => (objGet rootState name).getD default)
          blk.select) }

/-- `CompositionBuilder.selectors`: merge composition-level selectors into
the top-level selector record. -/
def selectors {σ V Ctx E A : Type} (b : CompositionBuilder σ V Ctx E A)
    (sels : SForest (JsObj σ) V) : CompositionBuilder σ V Ctx E A :=
  { b with select := fAssign b.select sels }

/-- `CompositionBuilder.effects`: append a composition-level factory. -/
def effects {σ V Ctx E A : Type} (b : CompositionBuilder σ V Ctx E A)
    (eff : Ctx → JsObj (List V → E)) : CompositionBuilder σ V Ctx E A :=
  { b with handlers := b.handlers ++ [eff] }

/-- The composition's own effects table: each factory's result re-namespaced
under the composition's name and merged in registration order. -/
def ownEffects {σ V Ctx E A : Type} (b : CompositionBuilder σ V Ctx E A)
    (c : Ctx) : JsObj (List V → E) :=
  b.handlers.foldl
    (fun acc eff =>
      objAssign acc
        (jsFromEntries ((eff c).map fun kv => (b.name ++ "/" ++ kv.1, kv.2))))
    []

/-- `CompositionBuilder.build`: composite reducer over the children's
`(name, reducer)` entries, effects table = own table overwritten by every
child's table in registration order, selector record from `block` and
`selectors`, and the creators proxy with the children's `actions` records
assigned onto it. -/
def build {σ V Ctx E A : Type} [DecidableEq σ]
    (b : CompositionBuilder σ V Ctx E A) :
    ReduxBlock (JsObj σ) V Ctx E (String → CompCreator V A) where
  actions := fun property =>
    match objGet b.creators property with
    | some a => .child a
    | none => .scoped (creator b.name property)
  reducer := fun state a =>
    compositeReducer (b.blocks.map fun kv => (kv.1, kv.2.reducer)) state a
  effects := fun c =>
    b.blocks.foldl (fun acc kv => objAssign acc (kv.2.effects c))
      (b.ownEffects c)
  select := .node b.select

end CompositionBuilder

namespace ReduxBlock

/-- What dispatch hands the effects middleware: either a value that is not
a truthy object carrying a `type` field, or a well-formed action. -/
inductive Dispatched (V : Type) : Type where
  | other : Dispatched V
  | act : String → Option (List V) → Dispatched V

/-- Observable steps the middleware takes for one dispatched value. -/
inductive MWEvent (V E : Type) : Type where
  | eff : (List V → E) → List V → MWEvent V E
  | next : Dispatched V → MWEvent V E

/-- One pass of the middleware's per-action function over the dispatch
table: invoke the matching handler (spreading the payload, empty when the
`payload` field is absent) when the action is a well-formed object whose
type is an own key of the table, then forward the action to `next`. -/
def middlewareRun {V E : Type} (tbl : JsObj (List V → E)) :
    Dispatched V → List (MWEvent V E)
  | .other => [.next .other]
  | .act t p =>
    match objGet tbl t with
    | some h => [.eff h (p.getD []), .next (.act t p)]
    | none => [.next (.act t p)]

/-- `ReduxBlock.middleware`: build the dispatch table once from the block
and context, then process every dispatched value with it. -/
def middleware {σ V Ctx E A : Type} (b : ReduxBlock σ V Ctx E A) (c : Ctx) :
    Dispatched V → List (MWEvent V E) :=
  middlewareRun (b.effects c)

/-- `ReduxBlock.mapContext`: same `actions`, `reducer` and `select`, with
the effects factory precomposed with the adapter. -/
def mapContext {σ V Ctx E A Ctx2 : Type} (b : ReduxBlock σ V Ctx E A)
    (mapper : Ctx2 → Ctx) : ReduxBlock σ V Ctx2 E A where
  actions := b.actions
  reducer := b.reducer
  effects := fun ctx => b.effects (mapper ctx)
  select := b.select

end ReduxBlock

/-! ## Claim theorems -/

/-- C3: for every scope and property, the action creator called with zero
arguments returns an action with the scoped type and no payload key, and
called with one or more arguments returns the scoped type with the
arguments as payload, in order; the payload key is present iff at least one
argument was supplied. -/
theorem creator_payload_shape {V : Type} (scope property : String)
    (payload : List V) :
    (creator scope property payload).type = scope ++ "/" ++ property
    ∧ (creator scope property payload).payload
        = (if payload.isEmpty then none else some payload)
    ∧ ((creator scope property payload).payload = none ↔ payload = []) := by
  cases payload with
  | nil => simp [creator]
  | cons v rest => simp [creator]

/-- C7: `mapContext` returns a block whose `actions`, `reducer` and
`select` are the input block's own, and whose effects factory feeds the
adapted context to the original factory. -/
theorem mapContext_shares_fields {σ V Ctx E A Ctx2 : Type}
    (b : ReduxBlock σ V Ctx E A) (mapper : Ctx2 → Ctx) :
    (ReduxBlock.mapContext b mapper).actions = b.actions
    ∧ (ReduxBlock.mapContext b mapper).reducer = b.reducer
    ∧ (ReduxBlock.mapContext b mapper).select = b.select
    ∧ ∀ c, (ReduxBlock.mapContext b mapper).effects c = b.effects (mapper c) :=
  ⟨rfl, rfl, rfl, fun _ => rfl⟩

/-- Prototype-member behavior for `Nat`-state witnesses: never consulted,
since the witnesses dispatch types that are not `Object.prototype` keys. -/
instance : JsProto Nat Nat := ⟨fun _ s _ => s⟩

/-- Prototype-member behavior for `String`-state counterexamples: the only
member the counterexamples invoke is `toString`, which called with an
`undefined` `this` (strict mode) returns `"[object Undefined]"`.  (Most
other members would throw on an `undefined` `this`; none returns the input
state.) -/
instance : JsProto String Nat :=
  ⟨fun k s _ => if k = "toString" then "[object Undefined]" else s⟩

/-- C2 (amended): a built block's reducer returns the input state itself
whenever the action's type has no registered handler and is not an own key
of `Object.prototype`; for prototype keys such as `"toString"`, plain
indexing finds the truthy inherited member, the no-op guard does not fire,
and the member is invoked in place of a handler. -/
theorem block_reducer_noop {σ V Ctx E : Type} [JsProto σ V]
    (b : BlockBuilder σ V Ctx E) (s : σ) (a : JsAction V)
    (h : objGet b.reducers a.type = none)
    (hp : a.type ∉ objectProtoKeys) :
    b.build.reducer (some s) a = s := by
  simp [BlockBuilder.build, protoGet, h, hp]

theorem block_reducer_noop_witness :
    ((BlockBuilder.init "counter" 0 :
        BlockBuilder Nat Nat Unit Unit).build).reducer (some 5)
      ⟨"other/evt", none⟩ = 5 :=
  block_reducer_noop _ 5 ⟨"other/evt", none⟩ rfl (by decide)

/-- C2 counterexample: dispatching `{type: "toString"}` to a block with no
registered handlers does not return the input state — the reducer invokes
the inherited `Object.prototype.toString` instead. -/
theorem block_reducer_noop_counterexample :
    ((BlockBuilder.init "late" "init" :
        BlockBuilder String Nat Unit Unit).build).reducer (some "state")
      ⟨"toString", none⟩ ≠ "state" := by decide

/-- C9 (amended): with `undefined` state and an action whose type has no
registered handler and is not an own key of `Object.prototype`, a built
block's reducer yields the initial state; for prototype keys the inherited
member is invoked on the defaulted state instead. -/
theorem block_reducer_undefined_initial {σ V Ctx E : Type} [JsProto σ V]
    (b : BlockBuilder σ V Ctx E) (a : JsAction V)
    (h : objGet b.reducers a.type = none)
    (hp : a.type ∉ objectProtoKeys) :
    b.build.reducer none a = b.initial := by
  simp [BlockBuilder.build, protoGet, h, hp]

theorem block_reducer_undefined_initial_witness :
    ((BlockBuilder.init "counter" 7 :
        BlockBuilder Nat Nat Unit Unit).build).reducer none
      ⟨"other/evt", none⟩ = 7 :=
  block_reducer_undefined_initial _ ⟨"other/evt", none⟩ rfl (by decide)

/-- C9 counterexample: a reducer called with `undefined` state on
`{type: "toString"}` does not yield the initial state — the inherited
`Object.prototype.toString` is invoked on the defaulted state and its
result (`"[object Undefined]"`) is returned. -/
theorem block_reducer_undefined_initial_counterexample :
    ((BlockBuilder.init "late" "init" :
        BlockBuilder String Nat Unit Unit).build).reducer none
      ⟨"toString", none⟩ ≠ "init" := by decide

/-- C8: registering two handlers under the same action name keeps only the
second: the built reducer behaves on every state and action exactly as if
only the second had been registered. -/
theorem action_last_registration_wins {σ V Ctx E : Type} [JsProto σ V]
    (b : BlockBuilder σ V Ctx E) (act : String) (h1 h2 : σ → List V → σ)
    (state : Option σ) (a : JsAction V) :
    (((b.action act h1).action act h2).build).reducer state a
      = ((b.action act h2).build).reducer state a := by
  have hb : (b.action act h1).action act h2 = b.action act h2 := by
    unfold BlockBuilder.action
    rw [objSet_objSet]
  rw [hb]

/-- C6: the effects middleware invokes a handler exactly when the
dispatched value is a well-formed action whose type is an own key of the
dispatch table, passing the spread payload (empty when the payload field is
absent), and in every case forwards the action to `next` exactly once, as
the final step. -/
theorem middleware_routing {σ V Ctx E A : Type} (b : ReduxBlock σ V Ctx E A)
    (c : Ctx) (a : ReduxBlock.Dispatched V) :
    ((ReduxBlock.middleware b c a).countP
        (fun e => match e with | .next _ => true | .eff _ _ => false) = 1)
    ∧ (ReduxBlock.middleware b c a).getLast? = some (.next a)
    ∧ (ReduxBlock.middleware b c a = [.next a]
        ∨ ∃ h args, ReduxBlock.middleware b c a = [.eff h args, .next a])
    ∧ (∀ h args, ReduxBlock.MWEvent.eff h args ∈ ReduxBlock.middleware b c a
        ↔ ∃ t p, a = .act t p ∧ objGet (b.effects c) t = some h
            ∧ args = p.getD []) := by
  cases a with
  | other =>
    refine ⟨rfl, rfl, Or.inl rfl, fun h args => ?_⟩
    simp [ReduxBlock.middleware, ReduxBlock.middlewareRun]
  | act t p =>
    cases hg : objGet (b.effects c) t with
    | none =>
      refine ⟨?_, ?_, ?_, fun h args => ?_⟩
      · simp [ReduxBlock.middleware, ReduxBlock.middlewareRun, hg, List.countP,
          List.countP.go]
      · simp [ReduxBlock.middleware, ReduxBlock.middlewareRun, hg]
      · left
        simp [ReduxBlock.middleware, ReduxBlock.middlewareRun, hg]
      · simp only [ReduxBlock.middleware, ReduxBlock.middlewareRun, hg]
        constructor
        · intro hmem
          simp at hmem
        · rintro ⟨t', p', heq, hg', rfl⟩
          cases heq
          rw [hg] at hg'
          exact absurd hg' (by simp)
    | some hnd =>
      refine ⟨?_, ?_, ?_, fun h args => ?_⟩
      · simp [ReduxBlock.middleware, ReduxBlock.middlewareRun, hg, List.countP,
          List.countP.go]
      · simp [ReduxBlock.middleware, ReduxBlock.middlewareRun, hg]
      · right
        exact ⟨hnd, p.getD [], by simp [ReduxBlock.middleware,
          ReduxBlock.middlewareRun, hg]⟩
      · simp only [ReduxBlock.middleware, ReduxBlock.middlewareRun, hg]
        constructor
        · intro hmem
          rcases List.mem_cons.mp hmem with he | he
          · cases he
            exact ⟨t, p, rfl, hg, rfl⟩
          · simp at he
        · rintro ⟨t', p', heq, hg', rfl⟩
          cases heq
          rw [hg] at hg'
          cases hg'
          exact List.mem_cons_self _ _

/-! ## Lifting laws (C4, C5) -/

mutual

theorem lift_lift_aux {S V R1 R2 : Type} (p1 : R1 → S) (p2 : R2 → R1) :
    (t : STree S V) → lift p2 (lift p1 t) = lift (fun r => p1 (p2 r)) t
  | .leaf f => by simp [lift]
  | .node kids => by
    simp only [lift]
    exact congrArg STree.node (liftF_liftF_aux p1 p2 kids)

theorem liftF_liftF_aux {S V R1 R2 : Type} (p1 : R1 → S) (p2 : R2 → R1) :
    (ts : SForest S V) → liftF p2 (liftF p1 ts) = liftF (fun r => p1 (p2 r)) ts
  | .nil => by simp [liftF]
  | .cons k t rest => by
    simp only [liftF]
    rw [lift_lift_aux p1 p2 t, liftF_liftF_aux p1 p2 rest]

end

/-- C4: lifting composes — lifting an already-lifted tree by a further
projection equals lifting the original tree by the composed projection,
so the two trees have identical shape and identical leaf values on every
root state. -/
theorem lift_composes {S V R1 R2 : Type} (p1 : R1 → S) (p2 : R2 → R1)
    (t : STree S V) :
    lift p2 (lift p1 t) = lift (fun root => p1 (p2 root)) t :=
  lift_lift_aux p1 p2 t

theorem fGet_liftF {S V R : Type} (p : R → S) :
    (kids : SForest S V) → (k : String) →
      fGet (liftF p kids) k = (fGet kids k).map (lift p)
  | .nil, _ => by simp [liftF, fGet]
  | .cons k' t rest, k => by
    by_cases h : k' = k
    · simp [liftF, fGet, h]
    · simp [liftF, fGet, h, fGet_liftF p rest k]

theorem pathGet_lift {S V R : Type} (p : R → S) (t : STree S V)
    (q : List String) :
    pathGet (lift p t) q = (pathGet t q).map (fun f => fun r => f (p r)) := by
  induction q generalizing t with
  | nil =>
    cases t with
    | leaf f => simp [lift, pathGet]
    | node kids => simp [lift, pathGet]
  | cons k rest ih =>
    cases t with
    | leaf f => simp [lift, pathGet]
    | node kids =>
      simp only [lift, pathGet]
      rw [fGet_liftF]
      cases h : fGet kids k with
      | none => simp
      | some u => simp [ih u]

mutual

theorem shapeOf_lift {S V R : Type} (p : R → S) :
    (t : STree S V) → shapeOf (lift p t) = shapeOf t
  | .leaf f => by simp [lift, shapeOf]
  | .node kids => by
    simp only [lift, shapeOf]
    rw [shapeOfF_liftF p kids]

theorem shapeOfF_liftF {S V R : Type} (p : R → S) :
    (ts : SForest S V) → shapeOfF (liftF p ts) = shapeOfF ts
  | .nil => by simp [liftF, shapeOfF]
  | .cons k t rest => by
    simp only [liftF, shapeOfF]
    rw [shapeOf_lift p t, shapeOfF_liftF p rest]

end

theorem fGet_fSet_self {S V : Type} :
    (f : SForest S V) → (k : String) → (t : STree S V) →
      fGet (fSet f k t) k = some t
  | .nil, k, t => by simp [fSet, fGet]
  | .cons k' u rest, k, t => by
    by_cases h : k' = k
    · simp [fSet, fGet, h]
    · simp [fSet, fGet, h, fGet_fSet_self rest k t]

/-- C5: registering a child block under `n` lifts the child's selector tree
onto the composite state: the stored subtree has exactly the child tree's
shape, and for every leaf `f` at path `q` of the child tree the composite's
selector tree holds, at path `n :: q`, a leaf computing `f` of the child's
slice of the composite state. -/
theorem composition_lifts_child_selectors {σ V Ctx E A : Type} [Inhabited σ]
    [DecidableEq σ] (b : CompositionBuilder σ V Ctx E A) (n : String)
    (blk : ReduxBlock σ V Ctx E A) (q : List String) (f : σ → V)
    (s : JsObj σ) (cs : σ) (hq : pathGet blk.select q = some f)
    (hs : objGet s n = some cs) :
    (∃ u, fGet (CompositionBuilder.block b n blk).select n = some u
        ∧ shapeOf u = shapeOf blk.select)
    ∧ (∃ g, pathGet ((CompositionBuilder.block b n blk).build).select (n :: q)
          = some g ∧ g s = f cs) := by
  set proj : JsObj σ → σ := fun rootState => (objGet rootState n).getD default
  have hsel : fGet (CompositionBuilder.block b n blk).select n
      = some (lift proj blk.select) := by
    simp only [CompositionBuilder.block]
    exact fGet_fSet_self b.select n _
  constructor
  · exact ⟨lift proj blk.select, hsel, shapeOf_lift proj blk.select⟩
  · refine ⟨fun r => f (proj r), ?_, ?_⟩
    · have hbuild :
          ((CompositionBuilder.block b n blk).build).select
            = .node (CompositionBuilder.block b n blk).select := rfl
      rw [hbuild]
      simp only [pathGet, hsel]
      rw [pathGet_lift proj blk.select q, hq]
      rfl
    · show f (proj s) = f cs
      simp [proj, hs]

theorem composition_lifts_child_selectors_witness :
    (∃ u,
        fGet
          (CompositionBuilder.block
            (CompositionBuilder.init "root" :
              CompositionBuilder Nat Nat Unit Unit Unit)
            "child"
            ⟨(), fun st _ => st.getD 0, fun _ => [],
              .node (.cons "value" (.leaf fun st => st + 1) .nil)⟩).select
          "child" = some u
        ∧ shapeOf u = shapeOf (STree.node
            (.cons "value" (STree.leaf fun st : Nat => st + 1) .nil)))
    ∧ (∃ g,
        pathGet
          ((CompositionBuilder.block
            (CompositionBuilder.init "root" :
              CompositionBuilder Nat Nat Unit Unit Unit)
            "child"
            ⟨(), fun st _ => st.getD 0, fun _ => [],
              .node (.cons "value" (.leaf fun st => st + 1) .nil)⟩).build).select
          ["child", "value"] = some g
        ∧ g [("child", 41)] = (fun st : Nat => st + 1) 41) :=
  composition_lifts_child_selectors
    (CompositionBuilder.init "root") "child"
    ⟨(), fun st _ => st.getD 0, fun _ => [],
      .node (.cons "value" (.leaf fun st => st + 1) .nil)⟩
    ["value"] (fun st => st + 1) [("child", 41)] 41 rfl rfl

/-! ## Structural sharing of the composite reducer (C1) -/

section CompositeFold

variable {σ V : Type} [DecidableEq σ] (s : JsObj σ) (a : JsAction V)

theorem foldl_compositeStep_nochange
    (l : List (String × (Option σ → JsAction V → σ))) (acc : JsObj σ × Bool)
    (h : ∀ nr ∈ l, some (nr.2 (objGet s nr.1) a) = objGet s nr.1) :
    l.foldl (compositeStep (some s) a) acc = acc := by
  induction l generalizing acc with
  | nil => rfl
  | cons hd rest ih =>
    have hstep : compositeStep (some s) a acc hd = acc := by
      simp [compositeStep, h hd (List.mem_cons_self hd rest)]
    rw [List.foldl_cons, hstep]
    exact ih acc (fun nr hm => h nr (List.mem_cons_of_mem hd hm))

theorem foldl_compositeStep_flag_mono
    (l : List (String × (Option σ → JsAction V → σ))) (acc : JsObj σ × Bool)
    (h : acc.2 = true) :
    (l.foldl (compositeStep (some s) a) acc).2 = true := by
  induction l generalizing acc with
  | nil => exact h
  | cons hd rest ih =>
    rw [List.foldl_cons]
    apply ih
    by_cases hc : some (hd.2 (objGet s hd.1) a) = objGet s hd.1
    · simpa [compositeStep, hc] using h
    · simp [compositeStep, hc]

theorem foldl_compositeStep_flag
    {l : List (String × (Option σ → JsAction V → σ))}
    {nr : String × (Option σ → JsAction V → σ)} (hmem : nr ∈ l)
    (hch : some (nr.2 (objGet s nr.1) a) ≠ objGet s nr.1)
    (acc : JsObj σ × Bool) :
    (l.foldl (compositeStep (some s) a) acc).2 = true := by
  induction hmem generalizing acc with
  | head rest =>
    rw [List.foldl_cons]
    apply foldl_compositeStep_flag_mono
    simp [compositeStep, hch]
  | tail hd hmem ih =>
    rw [List.foldl_cons]
    exact ih _

theorem foldl_compositeStep_other_key
    (l : List (String × (Option σ → JsAction V → σ))) (acc : JsObj σ × Bool)
    (k : String) (h : ∀ nr ∈ l, nr.1 ≠ k) :
    objGet (l.foldl (compositeStep (some s) a) acc).1 k = objGet acc.1 k := by
  induction l generalizing acc with
  | nil => rfl
  | cons hd rest ih =>
    rw [List.foldl_cons,
      ih _ (fun nr hm => h nr (List.mem_cons_of_mem hd hm))]
    by_cases hc : some (hd.2 (objGet s hd.1) a) = objGet s hd.1
    · simp [compositeStep, hc]
    · simp [compositeStep, hc,
        objGet_objSet_ne acc.1 _ (h hd (List.mem_cons_self hd rest))]

theorem foldl_compositeStep_unchanged
    {l : List (String × (Option σ → JsAction V → σ))}
    {nr : String × (Option σ → JsAction V → σ)}
    (hnd : (l.map Prod.fst).Nodup) (hmem : nr ∈ l)
    (hunch : some (nr.2 (objGet s nr.1) a) = objGet s nr.1)
    (acc : JsObj σ × Bool) :
    objGet (l.foldl (compositeStep (some s) a) acc).1 nr.1
      = objGet acc.1 nr.1 := by
  induction hmem generalizing acc with
  | head rest =>
    simp only [List.map_cons, List.nodup_cons] at hnd
    have hstep : compositeStep (some s) a acc nr = acc := by
      simp [compositeStep, hunch]
    rw [List.foldl_cons, hstep]
    apply foldl_compositeStep_other_key
    intro x hx hxk
    exact hnd.1 (hxk ▸ List.mem_map_of_mem Prod.fst hx)
  | tail hd hmem ih =>
    simp only [List.map_cons, List.nodup_cons] at hnd
    have hne : hd.1 ≠ nr.1 := fun he =>
      hnd.1 (he ▸ List.mem_map_of_mem Prod.fst hmem)
    rw [List.foldl_cons, ih hnd.2 _]
    by_cases hc : some (hd.2 (objGet s hd.1) a) = objGet s hd.1
    · simp [compositeStep, hc]
    · simp [compositeStep, hc, objGet_objSet_ne acc.1 _ hne]

theorem foldl_compositeStep_changed
    {l : List (String × (Option σ → JsAction V → σ))}
    {nr : String × (Option σ → JsAction V → σ)}
    (hnd : (l.map Prod.fst).Nodup) (hmem : nr ∈ l)
    (hch : some (nr.2 (objGet s nr.1) a) ≠ objGet s nr.1)
    (acc : JsObj σ × Bool) :
    objGet (l.foldl (compositeStep (some s) a) acc).1 nr.1
      = some (nr.2 (objGet s nr.1) a) := by
  induction hmem generalizing acc with
  | head rest =>
    simp only [List.map_cons, List.nodup_cons] at hnd
    have hstep : compositeStep (some s) a acc nr
        = (objSet acc.1 nr.1 (nr.2 (objGet s nr.1) a), true) := by
      simp [compositeStep, hch]
    rw [List.foldl_cons, hstep,
      foldl_compositeStep_other_key s a rest _ nr.1
        (fun x hx hxk => hnd.1 (hxk ▸ List.mem_map_of_mem Prod.fst hx))]
    exact objGet_objSet_self acc.1 nr.1 _
  | tail hd hmem ih =>
    simp only [List.map_cons, List.nodup_cons] at hnd
    rw [List.foldl_cons]
    exact ih hnd.2 _

end CompositeFold

/-- C1: the composite reducer preserves the exact input state object when
no child's slice changes, and otherwise returns a different object in which
every changed child's slot carries the child's updated slice while every
other slot (unchanged children and foreign keys alike) reads exactly as in
the input state. -/
theorem composite_reducer_structural_sharing {σ V Ctx E A : Type}
    [DecidableEq σ] (b : CompositionBuilder σ V Ctx E A)
    (hnd : (b.blocks.map Prod.fst).Nodup) (s : JsObj σ) (a : JsAction V) :
    ((∀ kv ∈ b.blocks, some (kv.2.reducer (objGet s kv.1) a) = objGet s kv.1)
        → b.build.reducer (some s) a = s)
    ∧ ((∃ kv ∈ b.blocks,
          some (kv.2.reducer (objGet s kv.1) a) ≠ objGet s kv.1) →
        b.build.reducer (some s) a ≠ s
        ∧ (∀ kv ∈ b.blocks,
            some (kv.2.reducer (objGet s kv.1) a) = objGet s kv.1 →
              objGet (b.build.reducer (some s) a) kv.1 = objGet s kv.1)
        ∧ (∀ kv ∈ b.blocks,
            some (kv.2.reducer (objGet s kv.1) a) ≠ objGet s kv.1 →
              objGet (b.build.reducer (some s) a) kv.1
                = some (kv.2.reducer (objGet s kv.1) a))
        ∧ (∀ k, (∀ kv ∈ b.blocks, kv.1 ≠ k) →
            objGet (b.build.reducer (some s) a) k = objGet s k)) := by
  set l : List (String × (Option σ → JsAction V → σ)) :=
    b.blocks.map fun kv => (kv.1, kv.2.reducer) with hl
  have hmem_l : ∀ kv ∈ b.blocks, (kv.1, kv.2.reducer) ∈ l := fun kv hkv =>
    hl ▸ List.mem_map_of_mem _ hkv
  have hnd_l : (l.map Prod.fst).Nodup := by
    have : l.map Prod.fst = b.blocks.map Prod.fst := by
      rw [hl, List.map_map]
      rfl
    rw [this]
    exact hnd
  have hred : b.build.reducer (some s) a = compositeReducer l (some s) a := rfl
  constructor
  · intro h
    have hall : ∀ nr ∈ l, some (nr.2 (objGet s nr.1) a) = objGet s nr.1 := by
      intro nr hm
      rw [hl] at hm
      rcases List.mem_map.mp hm with ⟨kv, hkv, rfl⟩
      exact h kv hkv
    rw [hred]
    simp only [compositeReducer, Option.getD_some]
    rw [foldl_compositeStep_nochange s a l (s, false) hall]
    simp
  · rintro ⟨kv₀, hkv₀, hch₀⟩
    have hflag : (l.foldl (compositeStep (some s) a) (s, false)).2 = true :=
      foldl_compositeStep_flag s a (hmem_l kv₀ hkv₀) hch₀ (s, false)
    have hres : b.build.reducer (some s) a
        = (l.foldl (compositeStep (some s) a) (s, false)).1 := by
      rw [hred]
      simp only [compositeReducer, Option.getD_some]
      rw [if_pos hflag]
    have hchanged : objGet (b.build.reducer (some s) a) kv₀.1
        = some (kv₀.2.reducer (objGet s kv₀.1) a) := by
      rw [hres]
      exact foldl_compositeStep_changed s a hnd_l (hmem_l kv₀ hkv₀) hch₀ _
    refine ⟨?_, ?_, ?_, ?_⟩
    · intro heq
      rw [heq] at hchanged
      exact hch₀ hchanged.symm
    · intro kv hkv hu
      rw [hres]
      exact foldl_compositeStep_unchanged s a hnd_l (hmem_l kv hkv) hu _
    · intro kv hkv hc
      rw [hres]
      exact foldl_compositeStep_changed s a hnd_l (hmem_l kv hkv) hc _
    · intro k hk
      rw [hres]
      apply foldl_compositeStep_other_key
      intro nr hm
      rw [hl] at hm
      rcases List.mem_map.mp hm with ⟨kv, hkv, rfl⟩
      exact hk kv hkv

/-- Child block used by the concrete composite witnesses: increments its
slice on every action. -/
def wBlkA : ReduxBlock Nat Nat Unit Unit Unit :=
  ⟨(), fun st _ => st.getD 0 + 1, fun _ => [], .node .nil⟩

/-- Child block used by the concrete composite witnesses: returns its slice
unchanged. -/
def wBlkB : ReduxBlock Nat Nat Unit Unit Unit :=
  ⟨(), fun st _ => st.getD 0, fun _ => [], .node .nil⟩

/-- Concrete two-child composition for the C1 witness. -/
def wComp : CompositionBuilder Nat Nat Unit Unit Unit :=
  ((CompositionBuilder.init "root").block "A" wBlkA).block "B" wBlkB

theorem composite_reducer_structural_sharing_witness :
    wComp.build.reducer (some [("A", 0), ("B", 5)]) ⟨"tick", none⟩
        ≠ [("A", 0), ("B", 5)]
    ∧ objGet (wComp.build.reducer (some [("A", 0), ("B", 5)]) ⟨"tick", none⟩)
        "B" = some 5
    ∧ objGet (wComp.build.reducer (some [("A", 0), ("B", 5)]) ⟨"tick", none⟩)
        "A" = some 1 := by
  have hblocks : wComp.blocks = [("A", wBlkA), ("B", wBlkB)] := rfl
  have hmemA : ("A", wBlkA) ∈ wComp.blocks := by
    rw [hblocks]
    exact List.mem_cons_self _ _
  have hmemB : ("B", wBlkB) ∈ wComp.blocks := by
    rw [hblocks]
    exact List.mem_cons_of_mem _ (List.mem_cons_self _ _)
  have hchA : some (wBlkA.reducer (objGet [("A", 0), ("B", 5)] "A")
      ⟨"tick", none⟩) ≠ objGet [("A", 0), ("B", 5)] "A" := by decide
  have h := composite_reducer_structural_sharing wComp (by decide)
    [("A", 0), ("B", 5)] ⟨"tick", none⟩
  obtain ⟨hne, hunch, hch, _⟩ := h.2 ⟨("A", wBlkA), hmemA, hchA⟩
  refine ⟨hne, ?_, ?_⟩
  · have hb := hunch ("B", wBlkB) hmemB (by decide)
    exact hb.trans (by decide)
  · have ha := hch ("A", wBlkA) hmemA hchA
    exact ha.trans (by decide)

/-! ## Effects-table precedence in compositions (C10) -/

theorem nodupKeys_objAssign {α : Type} (dst src : JsObj α)
    (h : (dst.map Prod.fst).Nodup) :
    ((objAssign dst src).map Prod.fst).Nodup := by
  induction src generalizing dst with
  | nil => exact h
  | cons hd rest ih =>
    have hstep : objAssign dst (hd :: rest)
        = objAssign (objSet dst hd.1 hd.2) rest := by
      simp [objAssign]
    rw [hstep]
    exact ih _ (nodupKeys_objSet dst hd.1 hd.2 h)

theorem nodupKeys_jsFromEntries {α : Type} (l : List (String × α)) :
    ((jsFromEntries l).map Prod.fst).Nodup :=
  nodupKeys_objAssign [] l (by simp)

/-- The binding a merged table stack yields for `k`: the last table in the
stack that carries `k`, falling back to the base table `d`. -/
def tableLookup {α : Type} (ts : List (JsObj α)) (d : JsObj α)
    (k : String) : Option α :=
  match lastWith (fun t => (objGet t k).isSome) ts with
  | some t => objGet t k
  | none => objGet d k

/-- Reading the result of merging a list of tables (each with unique keys)
over a base table: the last table binding the key wins, and the base is
consulted only when no table binds it. -/
theorem objGet_foldl_objAssign {α : Type} (ts : List (JsObj α))
    (d : JsObj α) (k : String)
    (h : ∀ t ∈ ts, (t.map Prod.fst).Nodup) :
    objGet (ts.foldl objAssign d) k = tableLookup ts d k := by
  induction ts generalizing d with
  | nil => simp [tableLookup, lastWith]
  | cons t rest ih =>
    rw [List.foldl_cons,
      ih _ (fun u hu => h u (List.mem_cons_of_mem t hu))]
    simp only [tableLookup, lastWith]
    cases hlast : lastWith (fun u => (objGet u k).isSome) rest with
    | some u => simp [hlast]
    | none =>
      simp only [hlast]
      rw [objGet_objAssign d t (h t (List.mem_cons_self t rest)) k]
      by_cases hs : (objGet t k).isSome = true
      · obtain ⟨v, hv⟩ := Option.isSome_iff_exists.mp hs
        simp [hv]
      · have hnone : objGet t k = none :=
          Option.not_isSome_iff_eq_none.mp hs
        simp [hnone]

/-- C10: in a built composition's effects table, the composition's own
re-namespaced handlers are merged first (factories in registration order,
later factories overwriting earlier ones) and every registered child's
table is merged over them in registration order, so the binding for any
key is the last child table carrying it, and the own table only when no
child carries it. -/
theorem composition_effects_child_precedence {σ V Ctx E A : Type}
    [DecidableEq σ] (b : CompositionBuilder σ V Ctx E A) (c : Ctx)
    (k : String)
    (hch : ∀ kv ∈ b.blocks, (((kv.2.effects c).map Prod.fst)).Nodup) :
    (objGet (b.build.effects c) k =
      tableLookup (b.blocks.map fun kv => kv.2.effects c)
        (b.ownEffects c) k)
    ∧ (objGet (b.ownEffects c) k =
      tableLookup
        (b.handlers.map fun eff =>
          jsFromEntries ((eff c).map fun kv => (b.name ++ "/" ++ kv.1, kv.2)))
        [] k) := by
  constructor
  · have hfold : b.build.effects c
        = (b.blocks.map fun kv => kv.2.effects c).foldl objAssign
            (b.ownEffects c) := by
      show b.blocks.foldl (fun acc kv => objAssign acc (kv.2.effects c))
          (b.ownEffects c) = _
      rw [List.foldl_map]
    rw [hfold]
    apply objGet_foldl_objAssign
    intro t ht
    rcases List.mem_map.mp ht with ⟨kv, hkv, rfl⟩
    exact hch kv hkv
  · have hfold : b.ownEffects c
        = (b.handlers.map fun eff =>
            jsFromEntries ((eff c).map fun kv =>
              (b.name ++ "/" ++ kv.1, kv.2))).foldl objAssign [] := by
      show b.handlers.foldl (fun acc eff => objAssign acc
          (jsFromEntries ((eff c).map fun kv =>
            (b.name ++ "/" ++ kv.1, kv.2)))) [] = _
      rw [List.foldl_map]
    rw [hfold]
    apply objGet_foldl_objAssign
    intro t ht
    rcases List.mem_map.mp ht with ⟨eff, heff, rfl⟩
    exact nodupKeys_jsFromEntries _

/-- Child block for the C10 witness: binds the colliding type "x/do". -/
def wBlkC : ReduxBlock Nat Nat Unit Nat Unit :=
  ⟨(), fun st _ => st.getD 0, fun _ => [("x/do", fun _ => 1)], .node .nil⟩

/-- Second child block for the C10 witness: also binds "x/do". -/
def wBlkD : ReduxBlock Nat Nat Unit Nat Unit :=
  ⟨(), fun st _ => st.getD 0, fun _ => [("x/do", fun _ => 2)], .node .nil⟩

/-- Composition for the C10 witness: its own effects also bind "x/do". -/
def wComp10 : CompositionBuilder Nat Nat Unit Nat Unit :=
  ((((CompositionBuilder.init "x").effects
      fun _ => [("do", fun _ => 0)]).block "C" wBlkC).block "D" wBlkD)

theorem composition_effects_child_precedence_witness :
    objGet (wComp10.build.effects ()) "x/do" = some (fun _ => 2) := by
  have h := composition_effects_child_precedence wComp10 () "x/do"
    (by
      intro kv hkv
      have hb : wComp10.blocks = [("C", wBlkC), ("D", wBlkD)] := rfl
      rw [hb] at hkv
      rcases List.mem_cons.mp hkv with rfl | hkv
      · decide
      rcases List.mem_cons.mp hkv with rfl | hkv
      · decide
      cases hkv)
  rw [h.1]
  rfl

end ReduxSacala
